import Mathlib

/-! Verification development for the eigenvalue-of-Laplacian repository.

The numerical engine (`EigenvalueCalculator` in `eigenvalue.js`) is shallowly
embedded over exact reals: JS numbers become `ℝ`, `Math.sqrt` becomes
`Real.sqrt`, a square `n × n` JS array of arrays becomes a total function
`ℕ → ℕ → ℝ` (zero outside the allocated block, since JS allocates with
`fill(0)`) together with the explicit order `n`.  Sequential loops become
folds or structural recursions; the two pieces of effectful state —
`Math.random` and the instance field `this.previousEigenvalue` — are threaded
explicitly (a stream of draws with a cursor, and a plain `ℝ`).  The graph
class of the UI layer is embedded as a pure state machine for the Laplacian
claim. -/

namespace EigenLap

noncomputable section

/-- Dense real matrix: a JS array of `n` rows of `n` numbers, modelled as a
total function that is `0` outside the allocated block. -/
abbrev Mat := ℕ → ℕ → ℝ

/-- Dense real vector of length `n`, modelled the same way. -/
abbrev Vec := ℕ → ℝ

/-- The constructor field `this.tolerance = 1e-10`. -/
def tolerance : ℝ := 1e-10

/-- JS `array.sort((a, b) => b - a)` sorts the numbers descending; a sorted
permutation of a list of reals is unique as a list, so insertion sort by `≥`
models it. -/
def sortDesc (l : List ℝ) : List ℝ := l.insertionSort (fun x y => x ≥ y)

/-- `matrixMultiply(A, B)` for `n × n` inputs (`rows = A.length`,
`cols = B[0].length`, inner dimension `A[0].length`, all equal to `n` at
every call site). -/
def matrixMultiply (n : ℕ) (A B : Mat) : Mat := fun i j =>
  if i < n ∧ j < n then ∑ k ∈ Finset.range n, A i k * B k j else 0

/-- `dotProduct(a, b) = a.reduce((sum, val, i) => sum + val * b[i], 0)` for
`a` of length `n`. -/
def dotProduct (n : ℕ) (a b : Vec) : ℝ := ∑ i ∈ Finset.range n, a i * b i

/-- State of the `qrDecomposition` column loop: the working copy `A` and the
accumulated orthogonal factor `Q`. -/
structure QRState where
  A : Mat
  Q : Mat

/-- The subdiagonal column norm `norm` computed at the top of iteration `k`
of the Householder loop (`for i = k .. n-1: norm += A[i][k]^2; sqrt`). -/
def colNorm (n : ℕ) (s : QRState) (k : ℕ) : ℝ :=
  Real.sqrt (∑ i ∈ Finset.Ico k n, s.A i k * s.A i k)

/-- The raw Householder vector `v`: zeros, then
`v[k] = A[k][k] - alpha` with `alpha = -sign(A[k][k]) * norm`
(`sign = 1` when `A[k][k] >= 0`), and `v[i] = A[i][k]` for `k < i < n`. -/
def hvec0 (n : ℕ) (s : QRState) (k : ℕ) : Vec := fun i =>
  if i = k then s.A k k - -(if 0 ≤ s.A k k then (1 : ℝ) else -1) * colNorm n s k
  else if k + 1 ≤ i ∧ i < n then s.A i k else 0

/-- `vNorm`, the Euclidean norm of the raw Householder vector. -/
def hvecNorm (n : ℕ) (s : QRState) (k : ℕ) : ℝ :=
  Real.sqrt (∑ i ∈ Finset.range n, hvec0 n s k i * hvec0 n s k i)

/-- The Householder vector after the conditional normalization
(`if (vNorm > tolerance) v[i] /= vNorm`). -/
def hvec (n : ℕ) (s : QRState) (k : ℕ) : Vec :=
  if tolerance < hvecNorm n s k then fun i => hvec0 n s k i / hvecNorm n s k
  else hvec0 n s k

/-- The reflection applied to the trailing columns of `A`
(`for j = k .. n-1`, rows `k .. n-1`); each inner double loop of the JS
code reads only the column it overwrites, so it is this pointwise update. -/
def stepA (n : ℕ) (s : QRState) (k : ℕ) : Mat := fun i j =>
  if k ≤ i ∧ i < n ∧ k ≤ j ∧ j < n then
    s.A i j - 2 * hvec n s k i * (∑ r ∈ Finset.Ico k n, hvec n s k r * s.A r j)
  else s.A i j

/-- The reflection accumulated into `Q` (`for j = 0 .. n-1`, rows
`k .. n-1`). -/
def stepQ (n : ℕ) (s : QRState) (k : ℕ) : Mat := fun i j =>
  if k ≤ i ∧ i < n ∧ j < n then
    s.Q i j - 2 * hvec n s k i * (∑ r ∈ Finset.Ico k n, hvec n s k r * s.Q r j)
  else s.Q i j

/-- One iteration (column `k`) of the Householder loop of
`qrDecomposition`: skip (`continue`) if the subdiagonal column norm is
below tolerance, else apply the reflection to `A` and `Q`. -/
def houseStep (n : ℕ) (s : QRState) (k : ℕ) : QRState :=
  if colNorm n s k < tolerance then s else ⟨stepA n s k, stepQ n s k⟩

/-- The JS initialization of `Q`: zeros, then `Q[i][i] = 1` for `i < n`. -/
def idMat (n : ℕ) : Mat := fun i j => if i = j ∧ i < n then 1 else 0

/-- The state of `qrDecomposition` after processing columns `0 .. k-1`
(the JS `A = matrix.map(row => [...row])` copy is the identity here). -/
def qrStates (n : ℕ) (M : Mat) (k : ℕ) : QRState :=
  (List.range k).foldl (houseStep n) ⟨M, idMat n⟩

/-- `qrDecomposition(matrix)`: run the Householder loop over all `n`
columns, then extract `R` by copying the entries on and above the diagonal
of the transformed `A` into a zero matrix.  Returns `(Q, R)`. -/
def qrDecomposition (n : ℕ) (M : Mat) : Mat × Mat :=
  let s := qrStates n M n
  (s.Q, fun i j => if i < n ∧ i ≤ j ∧ j < n then s.A i j else 0)

/-- C10: for every square matrix, every entry of the returned `R` strictly
below the diagonal is exactly zero (not merely below tolerance), because
`R` is assembled by copying only the on-and-above-diagonal entries of the
transformed matrix into a zero-initialized matrix. -/
theorem qr_R_strictly_lower_zero (n : ℕ) (M : Mat) (i j : ℕ) (h : j < i) :
    (qrDecomposition n M).2 i j = 0 := by
  have hij : ¬ i ≤ j := by omega
  simp [qrDecomposition, hij]

/-- Witness for C10 at `n = 2`, the identity input, entry `(1, 0)`. -/
theorem qr_R_strictly_lower_zero_witness :
    (0 : ℕ) < 1 ∧ (qrDecomposition 2 (idMat 2)).2 1 0 = 0 :=
  ⟨by norm_num, qr_R_strictly_lower_zero 2 (idMat 2) 1 0 (by norm_num)⟩

-- ===== concrete evaluation at the 2x2 identity =====

lemma i2_colNorm0 : colNorm 2 (⟨idMat 2, idMat 2⟩ : QRState) 0 = 1 := by
  have h : (∑ i ∈ Finset.Ico 0 2, (⟨idMat 2, idMat 2⟩ : QRState).A i 0 *
      (⟨idMat 2, idMat 2⟩ : QRState).A i 0) = 1 := by
    rw [← Finset.range_eq_Ico]
    simp [Finset.sum_range_succ, idMat]
  rw [colNorm, h, Real.sqrt_one]

lemma i2_hvec0_0 : ∀ i, hvec0 2 (⟨idMat 2, idMat 2⟩ : QRState) 0 i =
    if i = 0 then 2 else 0 := by
  intro i
  rw [hvec0, i2_colNorm0]
  rcases i with _ | _ | i <;> simp [idMat] <;> norm_num

lemma i2_hvecNorm0 : hvecNorm 2 (⟨idMat 2, idMat 2⟩ : QRState) 0 = 2 := by
  have h : (∑ i ∈ Finset.range 2, hvec0 2 (⟨idMat 2, idMat 2⟩ : QRState) 0 i *
      hvec0 2 (⟨idMat 2, idMat 2⟩ : QRState) 0 i) = 4 := by
    simp [Finset.sum_range_succ, i2_hvec0_0]
    norm_num
  rw [hvecNorm, h, show (4:ℝ) = 2 ^ 2 by norm_num, Real.sqrt_sq (by norm_num)]

lemma i2_hvec_0 : ∀ i, hvec 2 (⟨idMat 2, idMat 2⟩ : QRState) 0 i =
    if i = 0 then 1 else 0 := by
  intro i
  rw [hvec, i2_hvecNorm0, if_pos (by norm_num [tolerance]), i2_hvec0_0]
  rcases i with _ | i <;> norm_num

def A1I : Mat := fun i j => if i = 0 ∧ j = 0 then -1 else if i = 1 ∧ j = 1 then 1 else 0

lemma i2_step0 : houseStep 2 (⟨idMat 2, idMat 2⟩ : QRState) 0 = ⟨A1I, A1I⟩ := by
  rw [houseStep, i2_colNorm0, if_neg (by norm_num [tolerance])]
  have hA : stepA 2 (⟨idMat 2, idMat 2⟩ : QRState) 0 = A1I := by
    funext i j
    rcases i with _ | _ | i <;> rcases j with _ | _ | j <;>
      simp [stepA, idMat, A1I, i2_hvec_0, ← Finset.range_eq_Ico,
        Finset.sum_range_succ] <;> norm_num <;> try rw [if_neg (by omega)]
  have hQ : stepQ 2 (⟨idMat 2, idMat 2⟩ : QRState) 0 = A1I := by
    funext i j
    rcases i with _ | _ | i <;> rcases j with _ | _ | j <;>
      simp [stepQ, idMat, A1I, i2_hvec_0, ← Finset.range_eq_Ico,
        Finset.sum_range_succ] <;> norm_num <;> try rw [if_neg (by omega)]
  rw [hA, hQ]

lemma i2_colNorm1 : colNorm 2 (⟨A1I, A1I⟩ : QRState) 1 = 1 := by
  have h : (∑ i ∈ Finset.Ico 1 2, A1I i 1 * A1I i 1) = 1 := by
    rw [Finset.sum_Ico_eq_sum_range]
    simp [A1I]
  rw [colNorm, h, Real.sqrt_one]

lemma i2_hvec0_1 : ∀ i, hvec0 2 (⟨A1I, A1I⟩ : QRState) 1 i = if i = 1 then 2 else 0 := by
  intro i
  rw [hvec0, i2_colNorm1]
  rcases i with _ | _ | i <;> simp [A1I] <;> norm_num

lemma i2_hvecNorm1 : hvecNorm 2 (⟨A1I, A1I⟩ : QRState) 1 = 2 := by
  have h : (∑ i ∈ Finset.range 2, hvec0 2 (⟨A1I, A1I⟩ : QRState) 1 i *
      hvec0 2 (⟨A1I, A1I⟩ : QRState) 1 i) = 4 := by
    simp [Finset.sum_range_succ, i2_hvec0_1]
    norm_num
  rw [hvecNorm, h, show (4:ℝ) = 2 ^ 2 by norm_num, Real.sqrt_sq (by norm_num)]

lemma i2_hvec_1 : ∀ i, hvec 2 (⟨A1I, A1I⟩ : QRState) 1 i = if i = 1 then 1 else 0 := by
  intro i
  rw [hvec, i2_hvecNorm1, if_pos (by norm_num [tolerance]), i2_hvec0_1]
  rcases i with _ | _ | i <;> norm_num

def AFI : Mat := fun i j => if i = 0 ∧ j = 0 then -1 else if i = 1 ∧ j = 1 then -1 else 0

lemma i2_step1 : houseStep 2 (⟨A1I, A1I⟩ : QRState) 1 = ⟨AFI, AFI⟩ := by
  rw [houseStep, i2_colNorm1, if_neg (by norm_num [tolerance])]
  have hA : stepA 2 (⟨A1I, A1I⟩ : QRState) 1 = AFI := by
    funext i j
    rcases i with _ | _ | i <;> rcases j with _ | _ | j <;>
      simp [stepA, A1I, AFI, i2_hvec_1, Finset.sum_Ico_eq_sum_range] <;>
        norm_num <;> try rw [if_neg (by omega)]
  have hQ : stepQ 2 (⟨A1I, A1I⟩ : QRState) 1 = AFI := by
    funext i j
    rcases i with _ | _ | i <;> rcases j with _ | _ | j <;>
      simp [stepQ, A1I, AFI, i2_hvec_1, Finset.sum_Ico_eq_sum_range] <;>
        norm_num <;> try rw [if_neg (by omega)]
  rw [hA, hQ]

lemma i2_states : qrStates 2 (idMat 2) 2 = ⟨AFI, AFI⟩ := by
  rw [qrStates, show List.range 2 = [0, 1] from rfl]
  simp only [List.foldl_cons, List.foldl_nil]
  rw [i2_step0, i2_step1]

lemma i2_qr : qrDecomposition 2 (idMat 2) = (AFI, AFI) := by
  rw [qrDecomposition, i2_states]
  refine Prod.ext rfl ?_
  funext i j
  rcases i with _ | _ | i <;> rcases j with _ | _ | j <;>
    simp [AFI] <;> try rw [if_neg (by omega)]

/-- C2 (corrected): on the 2×2 identity input, `qrDecomposition` returns
`Q[0][0] = -1`, while the 2×2 identity has `1` there, so the claimed
`Q = I`, `R = I` is false (the sign choice `alpha = -sign(A[k][k])*norm`
reflects even an already-triangular column). -/
theorem qr_identity_claim_false :
    (qrDecomposition 2 (idMat 2)).1 0 0 = -1 ∧ idMat 2 0 0 = 1 ∧ ((-1 : ℝ) ≠ 1) := by
  refine ⟨?_, by simp [idMat], by norm_num⟩
  rw [i2_qr]
  simp [AFI]

/-- C2 (amended): Householder QR of the 2×2 identity returns `Q = -I` and
`R = -I` (the negated identity), not `Q = I`, `R = I`. -/
theorem qr_identity_eval :
    (qrDecomposition 2 (idMat 2)).1 = (fun i j => -(idMat 2 i j)) ∧
    (qrDecomposition 2 (idMat 2)).2 = (fun i j => -(idMat 2 i j)) := by
  rw [i2_qr]
  constructor <;>
    · funext i j
      rcases i with _ | _ | i <;> rcases j with _ | _ | j <;>
        simp [AFI, idMat] <;>
      first
        | rfl
        | norm_num
        | (rw [if_neg (by omega)] ; try norm_num)
        | (norm_num ; rw [if_neg (by omega)] ; try norm_num) <;> norm_num

-- ===== concrete evaluation at [[7,24],[24,7]] =====

/-- Helper: evaluate a real square root at a perfect square. -/
lemma sqrt_eval {x y : ℝ} (hy : 0 ≤ y) (h : x = y ^ 2) : Real.sqrt x = y := by
  rw [h, Real.sqrt_sq hy]

/-- The concrete symmetric test matrix `[[7,24],[24,7]]`. -/
def M7 : Mat := fun i j => if i < 2 ∧ j < 2 then (if i = j then 7 else 24) else 0

lemma m7_colNorm0 : colNorm 2 (⟨M7, idMat 2⟩ : QRState) 0 = 25 := by
  have h : (∑ i ∈ Finset.Ico 0 2, (⟨M7, idMat 2⟩ : QRState).A i 0 *
      (⟨M7, idMat 2⟩ : QRState).A i 0) = 625 := by
    rw [← Finset.range_eq_Ico]
    simp [Finset.sum_range_succ, M7]
    norm_num
  rw [colNorm, h, sqrt_eval (y := 25) (by norm_num) (by norm_num)]

lemma m7_hvec0_0 : ∀ i, hvec0 2 (⟨M7, idMat 2⟩ : QRState) 0 i =
    if i = 0 then 32 else if i = 1 then 24 else 0 := by
  intro i
  rw [hvec0, m7_colNorm0]
  rcases i with _ | _ | i <;> simp [M7] <;> norm_num

lemma m7_hvecNorm0 : hvecNorm 2 (⟨M7, idMat 2⟩ : QRState) 0 = 40 := by
  have h : (∑ i ∈ Finset.range 2, hvec0 2 (⟨M7, idMat 2⟩ : QRState) 0 i *
      hvec0 2 (⟨M7, idMat 2⟩ : QRState) 0 i) = 1600 := by
    simp [Finset.sum_range_succ, m7_hvec0_0]
    norm_num
  rw [hvecNorm, h, sqrt_eval (y := 40) (by norm_num) (by norm_num)]

lemma m7_hvec_0 : ∀ i, hvec 2 (⟨M7, idMat 2⟩ : QRState) 0 i =
    if i = 0 then 4/5 else if i = 1 then 3/5 else 0 := by
  intro i
  rw [hvec, m7_hvecNorm0, if_pos (by norm_num [tolerance]), m7_hvec0_0]
  rcases i with _ | _ | i <;> norm_num

/-- The working matrix after column 0 of the Householder loop on `M7`. -/
def A71 : Mat := fun i j =>
  if i = 0 ∧ j = 0 then -25 else if i = 0 ∧ j = 1 then -336/25
  else if i = 1 ∧ j = 1 then -527/25 else 0

/-- The accumulated `Q` after column 0 of the Householder loop on `M7`. -/
def Q71 : Mat := fun i j =>
  if i = 0 ∧ j = 0 then -7/25 else if i = 0 ∧ j = 1 then -24/25
  else if i = 1 ∧ j = 0 then -24/25 else if i = 1 ∧ j = 1 then 7/25 else 0

lemma m7_step0 : houseStep 2 (⟨M7, idMat 2⟩ : QRState) 0 = ⟨A71, Q71⟩ := by
  rw [houseStep, m7_colNorm0, if_neg (by norm_num [tolerance])]
  have hA : stepA 2 (⟨M7, idMat 2⟩ : QRState) 0 = A71 := by
    funext i j
    rcases i with _ | _ | i <;> rcases j with _ | _ | j <;>
      simp [stepA, M7, A71, m7_hvec_0, ← Finset.range_eq_Ico,
        Finset.sum_range_succ] <;>
      first
        | rfl
        | norm_num
        | (rw [if_neg (by omega)] ; try norm_num)
        | (norm_num ; rw [if_neg (by omega)] ; try norm_num)
  have hQ : stepQ 2 (⟨M7, idMat 2⟩ : QRState) 0 = Q71 := by
    funext i j
    rcases i with _ | _ | i <;> rcases j with _ | _ | j <;>
      simp [stepQ, idMat, Q71, m7_hvec_0, ← Finset.range_eq_Ico,
        Finset.sum_range_succ] <;>
      first
        | rfl
        | norm_num
        | (rw [if_neg (by omega)] ; try norm_num)
        | (norm_num ; rw [if_neg (by omega)] ; try norm_num)
  rw [hA, hQ]

lemma m7_colNorm1 : colNorm 2 (⟨A71, Q71⟩ : QRState) 1 = 527/25 := by
  have h : (∑ i ∈ Finset.Ico 1 2, A71 i 1 * A71 i 1) = (527/25) ^ 2 := by
    rw [Finset.sum_Ico_eq_sum_range]
    simp [A71]
    norm_num
  rw [colNorm, h, Real.sqrt_sq (by norm_num)]

lemma m7_hvec0_1 : ∀ i, hvec0 2 (⟨A71, Q71⟩ : QRState) 1 i =
    if i = 1 then -1054/25 else 0 := by
  intro i
  rw [hvec0, m7_colNorm1]
  rcases i with _ | _ | i <;> simp [A71] <;> norm_num

lemma m7_hvecNorm1 : hvecNorm 2 (⟨A71, Q71⟩ : QRState) 1 = 1054/25 := by
  have h : (∑ i ∈ Finset.range 2, hvec0 2 (⟨A71, Q71⟩ : QRState) 1 i *
      hvec0 2 (⟨A71, Q71⟩ : QRState) 1 i) = (1054/25) ^ 2 := by
    simp [Finset.sum_range_succ, m7_hvec0_1]
    norm_num
  rw [hvecNorm, h, Real.sqrt_sq (by norm_num)]

lemma m7_hvec_1 : ∀ i, hvec 2 (⟨A71, Q71⟩ : QRState) 1 i =
    if i = 1 then -1 else 0 := by
  intro i
  rw [hvec, m7_hvecNorm1, if_pos (by norm_num [tolerance]), m7_hvec0_1]
  rcases i with _ | _ | i <;> norm_num

/-- The final working matrix of the Householder loop on `M7`. -/
def A7F : Mat := fun i j =>
  if i = 0 ∧ j = 0 then -25 else if i = 0 ∧ j = 1 then -336/25
  else if i = 1 ∧ j = 1 then 527/25 else 0

/-- The final accumulated `Q` of the Householder loop on `M7`. -/
def Q7F : Mat := fun i j =>
  if i = 0 ∧ j = 0 then -7/25 else if i = 0 ∧ j = 1 then -24/25
  else if i = 1 ∧ j = 0 then 24/25 else if i = 1 ∧ j = 1 then -7/25 else 0

lemma m7_step1 : houseStep 2 (⟨A71, Q71⟩ : QRState) 1 = ⟨A7F, Q7F⟩ := by
  rw [houseStep, m7_colNorm1, if_neg (by norm_num [tolerance])]
  have hA : stepA 2 (⟨A71, Q71⟩ : QRState) 1 = A7F := by
    funext i j
    rcases i with _ | _ | i <;> rcases j with _ | _ | j <;>
      simp [stepA, A71, A7F, m7_hvec_1, Finset.sum_Ico_eq_sum_range] <;>
      first
        | rfl
        | norm_num
        | (rw [if_neg (by omega)] ; try norm_num)
        | (norm_num ; rw [if_neg (by omega)] ; try norm_num)
  have hQ : stepQ 2 (⟨A71, Q71⟩ : QRState) 1 = Q7F := by
    funext i j
    rcases i with _ | _ | i <;> rcases j with _ | _ | j <;>
      simp [stepQ, Q71, Q7F, m7_hvec_1, Finset.sum_Ico_eq_sum_range] <;>
      first
        | rfl
        | norm_num
        | (rw [if_neg (by omega)] ; try norm_num)
        | (norm_num ; rw [if_neg (by omega)] ; try norm_num)
  rw [hA, hQ]

/-- The final `R` of `qrDecomposition` on `M7`. -/
def R7F : Mat := fun i j =>
  if i = 0 ∧ j = 0 then -25 else if i = 0 ∧ j = 1 then -336/25
  else if i = 1 ∧ j = 1 then 527/25 else 0

lemma m7_states : qrStates 2 M7 2 = ⟨A7F, Q7F⟩ := by
  rw [qrStates, show List.range 2 = [0, 1] from rfl]
  simp only [List.foldl_cons, List.foldl_nil]
  rw [m7_step0, m7_step1]

lemma m7_qr : qrDecomposition 2 M7 = (Q7F, R7F) := by
  rw [qrDecomposition, m7_states]
  refine Prod.ext rfl ?_
  funext i j
  rcases i with _ | _ | i <;> rcases j with _ | _ | j <;>
    simp [A7F, R7F] <;> try rw [if_neg (by omega)]

/-- C1 counterexample: for `A = [[7,24],[24,7]]` the returned pair has
`(Q·R)[1][0] = -24` while `A[1][0] = 24`, an error of `48`, far above the
tolerance `1e-10`; so the claimed round-trip `Q·R ≈ A` is false.  (The code
accumulates `Q ← H·Q`, so it returns the transpose of the orthogonal
factor.) -/
theorem qr_roundtrip_claim_false :
    matrixMultiply 2 (qrDecomposition 2 M7).1 (qrDecomposition 2 M7).2 1 0 = -24 ∧
    M7 1 0 = 24 ∧
    ¬ (|(-24 : ℝ) - 24| ≤ tolerance) := by
  refine ⟨?_, by norm_num [M7], by norm_num [tolerance]⟩
  rw [m7_qr]
  norm_num [matrixMultiply, Finset.sum_range_succ, Q7F, R7F]

-- ===== general facts about the Householder step =====

lemma tolerance_pos : (0 : ℝ) < tolerance := by norm_num [tolerance]

lemma hvec0_outside (n : ℕ) (s : QRState) (k : ℕ) (hk : k < n) (i : ℕ)
    (h : i < k ∨ n ≤ i) : hvec0 n s k i = 0 := by
  rw [hvec0, if_neg (by omega), if_neg (by omega)]

lemma hvec_outside (n : ℕ) (s : QRState) (k : ℕ) (hk : k < n) (i : ℕ)
    (h : i < k ∨ n ≤ i) : hvec n s k i = 0 := by
  rw [hvec]
  split
  · simp [hvec0_outside n s k hk i h]
  · exact hvec0_outside n s k hk i h

/-- Extend a sum against the Householder vector from `Ico k n` to
`range n`, using that the vector vanishes below index `k`. -/
lemma hvec_sum_Ico_eq_range (n : ℕ) (s : QRState) (k : ℕ) (hk : k < n)
    (g : ℕ → ℝ) :
    ∑ r ∈ Finset.Ico k n, hvec n s k r * g r
      = ∑ r ∈ Finset.range n, hvec n s k r * g r := by
  rw [Finset.range_eq_Ico,
    ← Finset.sum_Ico_consecutive _ (Nat.zero_le k) (le_of_lt hk)]
  have h0 : ∑ r ∈ Finset.Ico 0 k, hvec n s k r * g r = 0 := by
    refine Finset.sum_eq_zero fun r hr => ?_
    rw [Finset.mem_Ico] at hr
    rw [hvec_outside n s k hk r (Or.inl hr.2), zero_mul]
  rw [h0, zero_add]

lemma nonskip_k_lt (n : ℕ) (s : QRState) (k : ℕ)
    (hskip : ¬ colNorm n s k < tolerance) : k < n := by
  by_contra hkn
  apply hskip
  rw [colNorm, Finset.Ico_eq_empty (by omega), Finset.sum_empty, Real.sqrt_zero]
  exact tolerance_pos

lemma colNorm_nonneg (n : ℕ) (s : QRState) (k : ℕ) : 0 ≤ colNorm n s k :=
  Real.sqrt_nonneg _

lemma colNorm_sq (n : ℕ) (s : QRState) (k : ℕ) :
    colNorm n s k * colNorm n s k = ∑ i ∈ Finset.Ico k n, s.A i k * s.A i k := by
  rw [colNorm]
  exact Real.mul_self_sqrt (Finset.sum_nonneg fun i _ => mul_self_nonneg _)

lemma hvec0_at_k (n : ℕ) (s : QRState) (k : ℕ) :
    hvec0 n s k k
      = s.A k k + (if 0 ≤ s.A k k then (1:ℝ) else -1) * colNorm n s k := by
  rw [hvec0, if_pos rfl]
  ring

/-- In the non-skipped case the raw Householder vector has squared norm
`2·c·(c + |A[k][k]|)` where `c` is the subdiagonal column norm. -/
lemma hvec0_sq_sum (n : ℕ) (s : QRState) (k : ℕ)
    (hskip : ¬ colNorm n s k < tolerance) :
    ∑ i ∈ Finset.range n, hvec0 n s k i * hvec0 n s k i
      = 2 * colNorm n s k * (colNorm n s k + |s.A k k|) := by
  have hk : k < n := nonskip_k_lt n s k hskip
  have hsplit :
      ∑ i ∈ Finset.range n, hvec0 n s k i * hvec0 n s k i
        = hvec0 n s k k * hvec0 n s k k
          + ∑ i ∈ Finset.Ico (k+1) n, s.A i k * s.A i k := by
    rw [Finset.range_eq_Ico,
      ← Finset.sum_Ico_consecutive _ (Nat.zero_le k) (le_of_lt hk)]
    have h0 : ∑ i ∈ Finset.Ico 0 k, hvec0 n s k i * hvec0 n s k i = 0 := by
      refine Finset.sum_eq_zero fun i hi => ?_
      rw [Finset.mem_Ico] at hi
      rw [hvec0_outside n s k hk i (Or.inl hi.2), zero_mul]
    rw [h0, zero_add, Finset.sum_eq_sum_Ico_succ_bot hk]
    congr 1
    refine Finset.sum_congr rfl fun i hi => ?_
    rw [Finset.mem_Ico] at hi
    rw [hvec0, if_neg (by omega), if_pos (by omega)]
  have htail :
      ∑ i ∈ Finset.Ico (k+1) n, s.A i k * s.A i k
        = colNorm n s k * colNorm n s k - s.A k k * s.A k k := by
    rw [colNorm_sq, Finset.sum_eq_sum_Ico_succ_bot hk]
    ring
  rw [hsplit, htail, hvec0_at_k]
  rcases le_or_lt 0 (s.A k k) with h | h
  · rw [if_pos h, abs_of_nonneg h]
    ring
  · rw [if_neg (not_le.mpr h), abs_of_neg h]
    ring

lemma nonskip_tol_lt_hvecNorm (n : ℕ) (s : QRState) (k : ℕ)
    (hskip : ¬ colNorm n s k < tolerance) : tolerance < hvecNorm n s k := by
  have htol : tolerance ≤ colNorm n s k := not_lt.mp hskip
  have hc : 0 < colNorm n s k := lt_of_lt_of_le tolerance_pos htol
  rw [hvecNorm, hvec0_sq_sum n s k hskip]
  rw [Real.lt_sqrt (le_of_lt tolerance_pos)]
  have h1 : tolerance * tolerance ≤ colNorm n s k * colNorm n s k :=
    mul_le_mul htol htol (le_of_lt tolerance_pos) (colNorm_nonneg n s k)
  have h2 : colNorm n s k * colNorm n s k
      < 2 * colNorm n s k * (colNorm n s k + |s.A k k|) := by
    nlinarith [abs_nonneg (s.A k k)]
  calc tolerance ^ 2 = tolerance * tolerance := sq (tolerance)  ▸ rfl
    _ ≤ colNorm n s k * colNorm n s k := h1
    _ < 2 * colNorm n s k * (colNorm n s k + |s.A k k|) := h2

lemma nonskip_hvec_eq (n : ℕ) (s : QRState) (k : ℕ)
    (hskip : ¬ colNorm n s k < tolerance) :
    hvec n s k = fun i => hvec0 n s k i / hvecNorm n s k := by
  rw [hvec, if_pos (nonskip_tol_lt_hvecNorm n s k hskip)]

lemma hvecNorm_pos (n : ℕ) (s : QRState) (k : ℕ)
    (hskip : ¬ colNorm n s k < tolerance) : 0 < hvecNorm n s k :=
  lt_trans tolerance_pos (nonskip_tol_lt_hvecNorm n s k hskip)

lemma hvecNorm_mul_self (n : ℕ) (s : QRState) (k : ℕ) :
    hvecNorm n s k * hvecNorm n s k
      = ∑ i ∈ Finset.range n, hvec0 n s k i * hvec0 n s k i := by
  rw [hvecNorm]
  exact Real.mul_self_sqrt (Finset.sum_nonneg fun i _ => mul_self_nonneg _)

/-- In the non-skipped case the normalized Householder vector is a unit
vector. -/
lemma hvec_unit (n : ℕ) (s : QRState) (k : ℕ)
    (hskip : ¬ colNorm n s k < tolerance) :
    ∑ i ∈ Finset.range n, hvec n s k i * hvec n s k i = 1 := by
  rw [nonskip_hvec_eq n s k hskip]
  have hpos := hvecNorm_pos n s k hskip
  have : ∀ i, hvec0 n s k i / hvecNorm n s k * (hvec0 n s k i / hvecNorm n s k)
      = hvec0 n s k i * hvec0 n s k i / (hvecNorm n s k * hvecNorm n s k) := by
    intro i; ring
  simp only [this]
  rw [← Finset.sum_div, ← hvecNorm_mul_self n s k,
    div_self (by positivity)]

lemma stepQ_eq (n : ℕ) (s : QRState) (k : ℕ)
    (hskip : ¬ colNorm n s k < tolerance) (i j : ℕ) (hi : i < n) (hj : j < n) :
    stepQ n s k i j
      = s.Q i j - 2 * hvec n s k i *
          (∑ r ∈ Finset.range n, hvec n s k r * s.Q r j) := by
  have hk := nonskip_k_lt n s k hskip
  rcases le_or_lt k i with h | h
  · rw [stepQ, if_pos ⟨h, hi, hj⟩, hvec_sum_Ico_eq_range n s k hk]
  · rw [stepQ, if_neg (by omega), hvec_outside n s k hk i (Or.inl h)]
    ring

lemma stepA_eq (n : ℕ) (s : QRState) (k : ℕ)
    (hskip : ¬ colNorm n s k < tolerance) (i j : ℕ) (hi : i < n) (hj : j < n)
    (hkj : k ≤ j) :
    stepA n s k i j
      = s.A i j - 2 * hvec n s k i *
          (∑ r ∈ Finset.range n, hvec n s k r * s.A r j) := by
  have hk := nonskip_k_lt n s k hskip
  rcases le_or_lt k i with h | h
  · rw [stepA, if_pos ⟨h, hi, hkj, hj⟩, hvec_sum_Ico_eq_range n s k hk]
  · rw [stepA, if_neg (by omega), hvec_outside n s k hk i (Or.inl h)]
    ring

lemma stepA_frozen (n : ℕ) (s : QRState) (k : ℕ) (i j : ℕ)
    (h : ¬ (k ≤ j ∧ j < n)) : stepA n s k i j = s.A i j := by
  rw [stepA, if_neg (by tauto)]

/-- Orthonormality of the columns of the `n × n` block of `Q`. -/
def OrthQ (n : ℕ) (Q : Mat) : Prop :=
  ∀ i < n, ∀ j < n,
    ∑ r ∈ Finset.range n, Q r i * Q r j = if i = j then 1 else 0

lemma orthQ_id (n : ℕ) : OrthQ n (idMat n) := by
  intro i hi j hj
  rw [Finset.sum_eq_single i]
  · by_cases h : i = j <;> simp [idMat, h, hi, hj]
  · intro r _ hr
    simp [idMat, hr]
  · intro h
    exact absurd (Finset.mem_range.mpr hi) h

lemma orth_step (n : ℕ) (s : QRState) (k : ℕ) (hQ : OrthQ n s.Q) :
    OrthQ n (houseStep n s k).Q := by
  rw [houseStep]
  split
  · exact hQ
  · rename_i hskip
    intro i hi j hj
    have hunit := hvec_unit n s k hskip
    have hexp : ∀ r, r < n →
        stepQ n s k r i * stepQ n s k r j
          = s.Q r i * s.Q r j
            - 2 * (∑ t ∈ Finset.range n, hvec n s k t * s.Q t j) *
                (hvec n s k r * s.Q r i)
            - 2 * (∑ t ∈ Finset.range n, hvec n s k t * s.Q t i) *
                (hvec n s k r * s.Q r j)
            + 4 * (∑ t ∈ Finset.range n, hvec n s k t * s.Q t i) *
                (∑ t ∈ Finset.range n, hvec n s k t * s.Q t j) *
                (hvec n s k r * hvec n s k r) := by
      intro r hr
      rw [stepQ_eq n s k hskip r i hr hi, stepQ_eq n s k hskip r j hr hj]
      ring
    calc ∑ r ∈ Finset.range n, (⟨stepA n s k, stepQ n s k⟩ : QRState).Q r i *
          (⟨stepA n s k, stepQ n s k⟩ : QRState).Q r j
        = ∑ r ∈ Finset.range n, (s.Q r i * s.Q r j
            - 2 * (∑ t ∈ Finset.range n, hvec n s k t * s.Q t j) *
                (hvec n s k r * s.Q r i)
            - 2 * (∑ t ∈ Finset.range n, hvec n s k t * s.Q t i) *
                (hvec n s k r * s.Q r j)
            + 4 * (∑ t ∈ Finset.range n, hvec n s k t * s.Q t i) *
                (∑ t ∈ Finset.range n, hvec n s k t * s.Q t j) *
                (hvec n s k r * hvec n s k r)) :=
          Finset.sum_congr rfl fun r hr => hexp r (Finset.mem_range.mp hr)
      _ = if i = j then 1 else 0 := by
          rw [Finset.sum_add_distrib, Finset.sum_sub_distrib,
            Finset.sum_sub_distrib, ← Finset.mul_sum, ← Finset.mul_sum,
            ← Finset.mul_sum, hunit, hQ i hi j hj]
          ring

lemma qrStates_succ (n : ℕ) (M : Mat) (k : ℕ) :
    qrStates n M (k+1) = houseStep n (qrStates n M k) k := by
  rw [qrStates, qrStates, List.range_succ, List.foldl_append,
    List.foldl_cons, List.foldl_nil]

lemma orth_states (n : ℕ) (M : Mat) (k : ℕ) : OrthQ n (qrStates n M k).Q := by
  induction k with
  | zero => exact orthQ_id n
  | succ k ih =>
      rw [qrStates_succ]
      exact orth_step n _ k ih

lemma hvec0_dot_colk (n : ℕ) (s : QRState) (k : ℕ)
    (hskip : ¬ colNorm n s k < tolerance) :
    ∑ r ∈ Finset.Ico k n, hvec0 n s k r * s.A r k
      = colNorm n s k * colNorm n s k + |s.A k k| * colNorm n s k := by
  have hk := nonskip_k_lt n s k hskip
  rw [Finset.sum_eq_sum_Ico_succ_bot hk]
  have htail : ∑ r ∈ Finset.Ico (k+1) n, hvec0 n s k r * s.A r k
      = colNorm n s k * colNorm n s k - s.A k k * s.A k k := by
    have h1 : ∀ r ∈ Finset.Ico (k+1) n,
        hvec0 n s k r * s.A r k = s.A r k * s.A r k := by
      intro r hr
      rw [Finset.mem_Ico] at hr
      rw [hvec0, if_neg (by omega), if_pos (by omega)]
    rw [Finset.sum_congr rfl h1, colNorm_sq, Finset.sum_eq_sum_Ico_succ_bot hk]
    ring
  rw [htail, hvec0_at_k]
  rcases le_or_lt 0 (s.A k k) with h | h
  · rw [if_pos h, abs_of_nonneg h]
    ring
  · rw [if_neg (not_le.mpr h), abs_of_neg h]
    ring

lemma hvec_dot_colk (n : ℕ) (s : QRState) (k : ℕ)
    (hskip : ¬ colNorm n s k < tolerance) :
    ∑ r ∈ Finset.Ico k n, hvec n s k r * s.A r k = hvecNorm n s k / 2 := by
  have hw' : hvecNorm n s k ≠ 0 := ne_of_gt (hvecNorm_pos n s k hskip)
  rw [nonskip_hvec_eq n s k hskip]
  have hterm : ∀ r, hvec0 n s k r / hvecNorm n s k * s.A r k
      = hvec0 n s k r * s.A r k / hvecNorm n s k := fun r => by ring
  simp only [hterm]
  rw [← Finset.sum_div, hvec0_dot_colk n s k hskip]
  have hN : colNorm n s k * colNorm n s k + |s.A k k| * colNorm n s k
      = hvecNorm n s k * hvecNorm n s k / 2 := by
    rw [hvecNorm_mul_self, hvec0_sq_sum n s k hskip]
    ring
  rw [hN]
  field_simp
  ring

/-- The reflection at column `k` produces exact zeros strictly below the
diagonal of column `k` (exact real arithmetic). -/
lemma stepA_zeroed (n : ℕ) (s : QRState) (k : ℕ)
    (hskip : ¬ colNorm n s k < tolerance) (i : ℕ) (hki : k < i) (hi : i < n) :
    stepA n s k i k = 0 := by
  have hk := nonskip_k_lt n s k hskip
  have hw' : hvecNorm n s k ≠ 0 := ne_of_gt (hvecNorm_pos n s k hskip)
  rw [stepA, if_pos ⟨by omega, hi, le_refl k, hk⟩, hvec_dot_colk n s k hskip,
    nonskip_hvec_eq n s k hskip]
  have hv0 : hvec0 n s k i = s.A i k := by
    rw [hvec0, if_neg (by omega), if_pos (by omega)]
  simp only [hv0]
  field_simp

/-- Invariant: the working matrix is the accumulated `Q` times the input,
on the `n × n` block. -/
def ProdInv (n : ℕ) (M : Mat) (s : QRState) : Prop :=
  ∀ i < n, ∀ j < n, s.A i j = ∑ r ∈ Finset.range n, s.Q i r * M r j

/-- Invariant: the processed columns `0 .. k-1` of the working matrix have
exact zeros strictly below the diagonal. -/
def LowZero (n : ℕ) (s : QRState) (k : ℕ) : Prop :=
  ∀ j < k, ∀ i < n, j < i → s.A i j = 0

lemma stepQ_row_sum (n : ℕ) (M : Mat) (s : QRState) (k : ℕ)
    (hskip : ¬ colNorm n s k < tolerance) (hprod : ProdInv n M s)
    (i j : ℕ) (hi : i < n) (hj : j < n) :
    ∑ r ∈ Finset.range n, stepQ n s k i r * M r j
      = s.A i j - 2 * hvec n s k i *
          (∑ t ∈ Finset.range n, hvec n s k t * s.A t j) := by
  have h1 : ∀ r ∈ Finset.range n, stepQ n s k i r * M r j
      = s.Q i r * M r j
        - (2 * hvec n s k i) *
            ((∑ t ∈ Finset.range n, hvec n s k t * s.Q t r) * M r j) := by
    intro r hr
    rw [stepQ_eq n s k hskip i r hi (Finset.mem_range.mp hr)]
    ring
  rw [Finset.sum_congr rfl h1, Finset.sum_sub_distrib, ← Finset.mul_sum]
  have hswap : ∑ r ∈ Finset.range n,
      (∑ t ∈ Finset.range n, hvec n s k t * s.Q t r) * M r j
        = ∑ t ∈ Finset.range n, hvec n s k t * s.A t j := by
    have h2 : ∀ r ∈ Finset.range n,
        (∑ t ∈ Finset.range n, hvec n s k t * s.Q t r) * M r j
          = ∑ t ∈ Finset.range n, hvec n s k t * (s.Q t r * M r j) := by
      intro r _
      rw [Finset.sum_mul]
      exact Finset.sum_congr rfl fun t _ => by ring
    rw [Finset.sum_congr rfl h2, Finset.sum_comm]
    refine Finset.sum_congr rfl fun t ht => ?_
    rw [← Finset.mul_sum, ← hprod t (Finset.mem_range.mp ht) j hj]
  rw [hswap, ← hprod i hi j hj]

lemma inv_step (n : ℕ) (M : Mat) (s : QRState) (k : ℕ) (hk : k < n)
    (hskip : ¬ colNorm n s k < tolerance)
    (hprod : ProdInv n M s) (hlow : LowZero n s k) :
    ProdInv n M ⟨stepA n s k, stepQ n s k⟩ ∧
    LowZero n ⟨stepA n s k, stepQ n s k⟩ (k+1) := by
  constructor
  · intro i hi j hj
    show stepA n s k i j = ∑ r ∈ Finset.range n, stepQ n s k i r * M r j
    rw [stepQ_row_sum n M s k hskip hprod i j hi hj]
    rcases le_or_lt k j with hkj | hkj
    · rw [stepA_eq n s k hskip i j hi hj hkj]
    · rw [stepA_frozen n s k i j (by omega)]
      have hz : ∑ t ∈ Finset.range n, hvec n s k t * s.A t j = 0 := by
        refine Finset.sum_eq_zero fun t ht => ?_
        rcases lt_or_le t k with htk | htk
        · rw [hvec_outside n s k hk t (Or.inl htk), zero_mul]
        · rw [hlow j hkj t (Finset.mem_range.mp ht) (by omega), mul_zero]
      rw [hz]
      ring
  · intro j hj i hi hji
    show stepA n s k i j = 0
    rcases Nat.lt_succ_iff_lt_or_eq.mp hj with hjk | hjk
    · rw [stepA_frozen n s k i j (by omega)]
      exact hlow j hjk i hi hji
    · have hz := stepA_zeroed n s k hskip i (by omega) hi
      rw [hjk]
      exact hz

lemma prodInv_init (n : ℕ) (M : Mat) : ProdInv n M ⟨M, idMat n⟩ := by
  intro i hi j hj
  show M i j = ∑ r ∈ Finset.range n, idMat n i r * M r j
  rw [Finset.sum_eq_single i]
  · simp [idMat, hi]
  · intro r _ hr
    simp [idMat, Ne.symm hr]
  · intro h
    exact absurd (Finset.mem_range.mpr hi) h

lemma states_inv (n : ℕ) (M : Mat)
    (hns : ∀ k < n, ¬ colNorm n (qrStates n M k) k < tolerance) :
    ∀ k, k ≤ n → ProdInv n M (qrStates n M k) ∧ LowZero n (qrStates n M k) k := by
  intro k
  induction k with
  | zero =>
      intro _
      exact ⟨prodInv_init n M, fun j hj => absurd hj (Nat.not_lt_zero j)⟩
  | succ k ih =>
      intro hk1
      have hk : k < n := by omega
      obtain ⟨hp, hl⟩ := ih (by omega)
      have hskip := hns k hk
      rw [qrStates_succ, houseStep, if_neg hskip]
      exact inv_step n M _ k hk hskip hp hl

/-- C1: for every square matrix, the returned `Q` has exactly orthonormal
columns (`Qᵗ·Q = I`, so certainly within tolerance); but the round-trip
only holds in transposed form: whenever no reflection step is skipped
(every processed column has subdiagonal norm at least the tolerance),
`Qᵗ·R = A` exactly.  The claimed `Q·R ≈ A` is false in general (see the
counterexample), because the code accumulates `Q ← H·Q` and therefore
returns the transpose of the orthogonal factor. -/
theorem qr_orthogonal_and_transposed_roundtrip (n : ℕ) (M : Mat) :
    (∀ i < n, ∀ j < n,
      ∑ r ∈ Finset.range n,
        (qrDecomposition n M).1 r i * (qrDecomposition n M).1 r j
          = if i = j then 1 else 0) ∧
    ((∀ k < n, ¬ colNorm n (qrStates n M k) k < tolerance) →
      ∀ i < n, ∀ j < n,
      ∑ r ∈ Finset.range n,
        (qrDecomposition n M).1 r i * (qrDecomposition n M).2 r j
          = M i j) := by
  constructor
  · intro i hi j hj
    exact orth_states n M n i hi j hj
  · intro hns i hi j hj
    obtain ⟨hp, hl⟩ := states_inv n M hns n le_rfl
    have hR : ∀ r ∈ Finset.range n,
        (qrDecomposition n M).1 r i * (qrDecomposition n M).2 r j
          = (qrStates n M n).Q r i * (qrStates n M n).A r j := by
      intro r hr
      have hrn := Finset.mem_range.mp hr
      show (qrStates n M n).Q r i *
          (if r < n ∧ r ≤ j ∧ j < n then (qrStates n M n).A r j else 0)
            = (qrStates n M n).Q r i * (qrStates n M n).A r j
      rcases le_or_lt r j with hrj | hrj
      · rw [if_pos ⟨hrn, hrj, hj⟩]
      · rw [if_neg (by omega), hl j hj r hrn hrj, mul_zero]
    rw [Finset.sum_congr rfl hR]
    have h2 : ∀ r ∈ Finset.range n,
        (qrStates n M n).Q r i * (qrStates n M n).A r j
          = ∑ c ∈ Finset.range n,
              (qrStates n M n).Q r i * ((qrStates n M n).Q r c * M c j) := by
      intro r hr
      rw [hp r (Finset.mem_range.mp hr) j hj, Finset.mul_sum]
    rw [Finset.sum_congr rfl h2, Finset.sum_comm]
    have h3 : ∀ c ∈ Finset.range n,
        ∑ r ∈ Finset.range n,
          (qrStates n M n).Q r i * ((qrStates n M n).Q r c * M c j)
            = (if i = c then 1 else 0) * M c j := by
      intro c hc
      have : ∀ r ∈ Finset.range n,
          (qrStates n M n).Q r i * ((qrStates n M n).Q r c * M c j)
            = ((qrStates n M n).Q r i * (qrStates n M n).Q r c) * M c j :=
        fun r _ => by ring
      rw [Finset.sum_congr rfl this, ← Finset.sum_mul,
        orth_states n M n i hi c (Finset.mem_range.mp hc)]
    rw [Finset.sum_congr rfl h3, Finset.sum_eq_single i]
    · rw [if_pos rfl, one_mul]
    · intro c _ hc
      rw [if_neg (Ne.symm hc), zero_mul]
    · intro h
      exact absurd (Finset.mem_range.mpr hi) h

/-- Witness for C1 at the 2×2 identity: no step is skipped (both column
norms are `1`), and `Qᵗ·R` reproduces the input. -/
theorem qr_orthogonal_and_transposed_roundtrip_witness :
    (∀ k < 2, ¬ colNorm 2 (qrStates 2 (idMat 2) k) k < tolerance) ∧
    (∀ i < 2, ∀ j < 2,
      ∑ r ∈ Finset.range 2,
        (qrDecomposition 2 (idMat 2)).1 r i * (qrDecomposition 2 (idMat 2)).2 r j
          = idMat 2 i j) := by
  have hns : ∀ k < 2, ¬ colNorm 2 (qrStates 2 (idMat 2) k) k < tolerance := by
    intro k hk
    interval_cases k
    · show ¬ colNorm 2 ((List.range 0).foldl (houseStep 2) ⟨idMat 2, idMat 2⟩) 0 < tolerance
      simp only [List.range_zero, List.foldl_nil]
      rw [i2_colNorm0]
      norm_num [tolerance]
    · show ¬ colNorm 2 ((List.range 1).foldl (houseStep 2) ⟨idMat 2, idMat 2⟩) 1 < tolerance
      simp only [show List.range 1 = [0] from rfl, List.foldl_cons, List.foldl_nil]
      rw [i2_step0, i2_colNorm1]
      norm_num [tolerance]
  exact ⟨hns, (qr_orthogonal_and_transposed_roundtrip 2 (idMat 2)).2 hns⟩

-- ===== closed-form solvers =====

/-- JS `Math.cbrt`: the real (sign-preserving) cube root. -/
def jsCbrt (x : ℝ) : ℝ :=
  if x < 0 then -((-x) ^ ((1 : ℝ) / 3)) else x ^ ((1 : ℝ) / 3)

/-- `eigenvalues2x2(matrix)`: quadratic formula; a negative discriminant
(complex pair) is collapsed to the real part `trace/2`, returned twice. -/
def eigenvalues2x2 (M : Mat) : List ℝ :=
  let a := M 0 0
  let b := M 0 1
  let c := M 1 0
  let d := M 1 1
  let trace := a + d
  let det := a * d - b * c
  let disc := trace * trace - 4 * det
  if disc < 0 then [trace / 2, trace / 2]
  else
    let sqrtDisc := Real.sqrt disc
    sortDesc [(trace + sqrtDisc) / 2, (trace - sqrtDisc) / 2]

/-- `eigenvalues3x3(matrix)`: Cardano's formula on the characteristic
cubic, with the same complex-collapse policy on a positive cubic
discriminant. -/
def eigenvalues3x3 (M : Mat) : List ℝ :=
  let a := M 0 0
  let b := M 0 1
  let c := M 0 2
  let d := M 1 0
  let e := M 1 1
  let f := M 1 2
  let g := M 2 0
  let h := M 2 1
  let i := M 2 2
  let trace := a + e + i
  let sumOfMinors := (a * e - b * d) + (a * i - c * g) + (e * i - f * h)
  let det := a * (e * i - f * h) - b * (d * i - f * g) + c * (d * h - e * g)
  let p := sumOfMinors - trace * trace / 3
  let q := det - trace * sumOfMinors / 3 + 2 * trace * trace * trace / 27
  let disc := (q / 2) * (q / 2) + (p / 3) * (p / 3) * (p / 3)
  if 0 < disc then
    let u := jsCbrt (-q / 2 + Real.sqrt disc)
    let v := jsCbrt (-q / 2 - Real.sqrt disc)
    let realRoot := u + v - trace / 3
    [realRoot, realRoot, realRoot]
  else if disc = 0 then
    let u := jsCbrt (-q / 2)
    let root1 := 2 * u - trace / 3
    let root2 := -u - trace / 3
    sortDesc [root1, root2, root2]
  else
    let r := Real.sqrt (-p / 3)
    let theta := Real.arccos (-q / (2 * r * r * r))
    let root1 := 2 * r * Real.cos (theta / 3) - trace / 3
    let root2 := 2 * r * Real.cos ((theta + 2 * Real.pi) / 3) - trace / 3
    let root3 := 2 * r * Real.cos ((theta + 4 * Real.pi) / 3) - trace / 3
    sortDesc [root1, root2, root3]

lemma sortDesc_pair (x y : ℝ) (h : y ≤ x) : sortDesc [x, y] = [x, y] := by
  rw [sortDesc]
  simp only [List.insertionSort, List.orderedInsert]
  rw [if_pos h]

/-- C3: on every 2×2 matrix the solver returns `trace/2` twice when the
discriminant `trace² − 4·det` is negative, and otherwise
`(trace + √disc)/2` followed by `(trace − √disc)/2` — descending order. -/
theorem eigenvalues2x2_closed_form (M : Mat) :
    eigenvalues2x2 M =
      if (M 0 0 + M 1 1) * (M 0 0 + M 1 1)
          - 4 * (M 0 0 * M 1 1 - M 0 1 * M 1 0) < 0 then
        [(M 0 0 + M 1 1) / 2, (M 0 0 + M 1 1) / 2]
      else
        [((M 0 0 + M 1 1) + Real.sqrt ((M 0 0 + M 1 1) * (M 0 0 + M 1 1)
            - 4 * (M 0 0 * M 1 1 - M 0 1 * M 1 0))) / 2,
         ((M 0 0 + M 1 1) - Real.sqrt ((M 0 0 + M 1 1) * (M 0 0 + M 1 1)
            - 4 * (M 0 0 * M 1 1 - M 0 1 * M 1 0))) / 2] := by
  simp only [eigenvalues2x2]
  split
  · rfl
  · exact sortDesc_pair _ _ (by
      have := Real.sqrt_nonneg ((M 0 0 + M 1 1) * (M 0 0 + M 1 1)
        - 4 * (M 0 0 * M 1 1 - M 0 1 * M 1 0))
      linarith)

-- ===== power iteration, deflation, dispatcher =====

/-- The pseudo-random source: the stream of values successive calls to
`Math.random()` produce, plus a cursor for how many have been consumed. -/
structure RState where
  seq : ℕ → ℝ
  pos : ℕ

/-- Result of `powerIteration`: the `{eigenvalue, eigenvector}` object the
JS returns, together with the threaded random source and the instance
field `this.previousEigenvalue` as the call leaves it. -/
structure PRes where
  ev : ℝ
  evec : Vec
  rs : RState
  prev : ℝ

/-- The matrix–vector product `newVector` computed in each power
iteration (`for i: for j: newVector[i] += matrix[i][j] * vector[j]`). -/
def matVec (n : ℕ) (A : Mat) (v : Vec) : Vec := fun i =>
  if i < n then ∑ j ∈ Finset.range n, A i j * v j else 0

/-- The body of the `powerIteration` for-loop.  `fuel` is the number of
remaining iterations and `iter` the JS loop counter; the triple returned
is (eigenvalue, vector, this.previousEigenvalue).  The two `break`s are
the two early returns: degenerate direction (`norm < tolerance`, vector
not yet replaced) and convergence (`iter > 0` and the Rayleigh estimate
moved less than tolerance, vector already replaced). -/
def powerLoop (n : ℕ) (A : Mat) : ℕ → ℕ → Vec → ℝ → ℝ → ℝ × Vec × ℝ
  | 0, _, vector, eigenvalue, prev => (eigenvalue, vector, prev)
  | fuel + 1, iter, vector, _, prev =>
    let newVector := matVec n A vector
    let eigenvalue := dotProduct n vector newVector
    let nrm := Real.sqrt (∑ i ∈ Finset.range n, newVector i * newVector i)
    if nrm < tolerance then (eigenvalue, vector, prev)
    else
      let vector2 : Vec := fun i => newVector i / nrm
      if 0 < iter ∧ |eigenvalue - prev| < tolerance then (eigenvalue, vector2, prev)
      else powerLoop n A fuel (iter + 1) vector2 eigenvalue eigenvalue

/-- The initial vector of `powerIteration`: `n` fresh `Math.random()`
draws, normalized.  (In Lean division by a zero norm yields `0` where JS
would produce `NaN`; no claim depends on that degenerate case.) -/
def initVec (n : ℕ) (rs : RState) : Vec :=
  let draws : Vec := fun i => if i < n then rs.seq (rs.pos + i) else 0
  let nrm0 := Real.sqrt (∑ i ∈ Finset.range n, draws i * draws i)
  fun i => draws i / nrm0

/-- `powerIteration(matrix, maxIterations = 1000)`: pseudo-random unit
start, then up to `maxIterations` multiply/Rayleigh/renormalize steps.
`prev0` is whatever an earlier call left in
`this.previousEigenvalue`. -/
def powerIteration (n : ℕ) (A : Mat) (maxIterations : ℕ) (rs : RState)
    (prev0 : ℝ) : PRes :=
  let res := powerLoop n A maxIterations 0 (initVec n rs) 0 prev0
  ⟨res.1, res.2.1, ⟨rs.seq, rs.pos + n⟩, res.2.2⟩

/-- `deflateMatrix(matrix, eigenvalue, eigenvector)`:
`A' = A − λ·(v·vᵗ)`, assembled in a fresh zero-initialized array. -/
def deflateMatrix (n : ℕ) (M : Mat) (ev : ℝ) (v : Vec) : Mat := fun i j =>
  if i < n ∧ j < n then M i j - ev * (v i * v j) else 0

/-- `eigenvalues4x4(matrix)`: a fixed chain of four power iterations with
cap 200, deflating after each of the first three, sorted descending. -/
def eigenvalues4x4 (n : ℕ) (M : Mat) (rs : RState) (p : ℝ) : List ℝ :=
  let r1 := powerIteration n M 200 rs p
  let A1 := deflateMatrix n M r1.ev r1.evec
  let r2 := powerIteration n A1 200 r1.rs r1.prev
  let A2 := deflateMatrix n A1 r2.ev r2.evec
  let r3 := powerIteration n A2 200 r2.rs r2.prev
  let A3 := deflateMatrix n A2 r3.ev r3.evec
  let r4 := powerIteration n A3 200 r3.rs r3.prev
  sortDesc [r1.ev, r2.ev, r3.ev, r4.ev]

/-- State of the `findAllEigenvalues` loop: working matrix, accumulated
eigenvalues, random source, `this.previousEigenvalue`. -/
structure FState where
  A : Mat
  evs : List ℝ
  rs : RState
  prev : ℝ

/-- One iteration of the `findAllEigenvalues` loop: power-iterate with
cap 100, append the eigenvalue, deflate unless this was the last index
(`if (i < n - 1)`). -/
def findStep (n : ℕ) (st : FState) (i : ℕ) : FState :=
  let res := powerIteration n st.A 100 st.rs st.prev
  ⟨if i < n - 1 then deflateMatrix n st.A res.ev res.evec else st.A,
   st.evs ++ [res.ev], res.rs, res.prev⟩

/-- `eigenvalues4x4` is reached through `simpleEigenvalueMethod`, which
`findAllEigenvalues` calls for `n ≤ 4`. -/
def simpleEigenvalueMethod (n : ℕ) (M : Mat) (rs : RState) (p : ℝ) : List ℝ :=
  if n = 2 then eigenvalues2x2 M
  else if n = 3 then eigenvalues3x3 M
  else if n = 4 then eigenvalues4x4 n M rs p
  else []

/-- `findAllEigenvalues(matrix)`: delegate `n ≤ 4`, else loop `n` times
(power iteration with cap 100, deflating between iterations), sorted
descending. -/
def findAllEigenvalues (n : ℕ) (M : Mat) (rs : RState) (p : ℝ) : List ℝ :=
  if n ≤ 4 then simpleEigenvalueMethod n M rs p
  else sortDesc (((List.range n).foldl (findStep n) ⟨M, [], rs, p⟩).evs)

/-- `calculateEigenvalues(matrix)`: the dispatcher. -/
def calculateEigenvalues (n : ℕ) (M : Mat) (rs : RState) (p : ℝ) : List ℝ :=
  if n = 0 then []
  else if n = 1 then [M 0 0]
  else if n = 2 then eigenvalues2x2 M
  else if n = 3 then eigenvalues3x3 M
  else findAllEigenvalues n M rs p

/-- C8: `powerIteration` returns identical (eigenvalue, eigenvector)
results for the same matrix, iteration cap and random draws, whatever
value earlier calls on the same calculator instance left in the shared
mutable field `this.previousEigenvalue` (the only state crossing
invocations): the field is never read before the loop writes it. -/
theorem powerIteration_prev_independent (n : ℕ) (A : Mat) (cap : ℕ)
    (rs : RState) (p q : ℝ) :
    (powerIteration n A cap rs p).ev = (powerIteration n A cap rs q).ev ∧
    (powerIteration n A cap rs p).evec = (powerIteration n A cap rs q).evec := by
  have key : ∀ v e,
      ((powerLoop n A cap 0 v e p).1, (powerLoop n A cap 0 v e p).2.1)
        = ((powerLoop n A cap 0 v e q).1, (powerLoop n A cap 0 v e q).2.1) := by
    intro v e
    cases cap with
    | zero => rfl
    | succ fuel =>
        simp only [powerLoop]
        split
        · rfl
        · rw [if_neg (fun hc => Nat.lt_irrefl 0 hc.1),
            if_neg (fun hc => Nat.lt_irrefl 0 hc.1)]
  have h := key (initVec n rs) 0
  rw [Prod.mk.injEq] at h
  exact ⟨h.1, h.2⟩

/-- The power-iteration/deflation chain described by the spec: `m`
successive power-iteration calls with iteration cap `cap` on the
successively deflated matrix, deflating after every call except the last,
collecting one eigenvalue per call (threading the random source and the
`previousEigenvalue` field like the code does). -/
def powerDeflationChain (n cap : ℕ) : ℕ → Mat → RState → ℝ → List ℝ × RState × ℝ
  | 0, _, rs, p => ([], rs, p)
  | m + 1, A, rs, p =>
    let res := powerIteration n A cap rs p
    if m = 0 then ([res.ev], res.rs, res.prev)
    else
      let rest := powerDeflationChain n cap m
        (deflateMatrix n A res.ev res.evec) res.rs res.prev
      (res.ev :: rest.1, rest.2)

lemma eigenvalues4x4_eq_chain (n : ℕ) (M : Mat) (rs : RState) (p : ℝ) :
    eigenvalues4x4 n M rs p = sortDesc (powerDeflationChain n 200 4 M rs p).1 := by
  rfl

lemma findFold_eq_chain (n : ℕ) :
    ∀ m i A rs p acc, i + m = n → 1 ≤ m →
      ((List.range' i m).foldl (findStep n) ⟨A, acc, rs, p⟩).evs
        = acc ++ (powerDeflationChain n 100 m A rs p).1 := by
  intro m
  induction m with
  | zero => intro i A rs p acc _ h1; exact absurd h1 (by omega)
  | succ m ih =>
      intro i A rs p acc hin _
      rw [List.range'_succ, List.foldl_cons]
      cases Nat.eq_zero_or_pos m with
      | inl hm0 =>
          subst hm0
          simp only [List.range', List.foldl_nil]
          show (findStep n ⟨A, acc, rs, p⟩ i).evs
            = acc ++ (powerDeflationChain n 100 1 A rs p).1
          simp [findStep, powerDeflationChain]
      | inr hm =>
          have hdefl : i < n - 1 := by omega
          have hstep : findStep n ⟨A, acc, rs, p⟩ i
              = ⟨deflateMatrix n A (powerIteration n A 100 rs p).ev
                    (powerIteration n A 100 rs p).evec,
                 acc ++ [(powerIteration n A 100 rs p).ev],
                 (powerIteration n A 100 rs p).rs,
                 (powerIteration n A 100 rs p).prev⟩ := by
            simp only [findStep, if_pos hdefl]
          rw [hstep, ih (i+1) _ _ _ _ (by omega) (by omega)]
          rw [powerDeflationChain]
          rw [if_neg (by omega)]
          rw [List.append_assoc]
          rfl

/-- C5: the dispatcher runs `eigenvalues4x4` for order 4 — exactly the
four-call power-iteration chain with cap 200, deflating between
consecutive calls, sorted descending at the end — and for `n ≥ 5` it runs
exactly the `n`-call chain with cap 100 on the successively deflated
matrix, sorted descending at the end. -/
theorem dispatch_chain_structure (n : ℕ) (M : Mat) (rs : RState) (p : ℝ) :
    calculateEigenvalues 4 M rs p
      = sortDesc (powerDeflationChain 4 200 4 M rs p).1 ∧
    (5 ≤ n → calculateEigenvalues n M rs p
      = sortDesc (powerDeflationChain n 100 n M rs p).1) := by
  constructor
  · show findAllEigenvalues 4 M rs p = _
    rw [findAllEigenvalues, if_pos (by norm_num), simpleEigenvalueMethod]
    rw [if_neg (by norm_num), if_neg (by norm_num), if_pos rfl]
    exact eigenvalues4x4_eq_chain 4 M rs p
  · intro hn
    rw [calculateEigenvalues, if_neg (by omega), if_neg (by omega),
      if_neg (by omega), if_neg (by omega), findAllEigenvalues,
      if_neg (by omega)]
    rw [List.range_eq_range',
      findFold_eq_chain n n 0 M rs p [] (by omega) (by omega),
      List.nil_append]

/-- Witness for C5 at `n = 5` (zero matrix, zero stream). -/
theorem dispatch_chain_structure_witness :
    (5 : ℕ) ≤ 5 ∧
    calculateEigenvalues 5 (fun _ _ => 0) ⟨fun _ => 0, 0⟩ 0
      = sortDesc (powerDeflationChain 5 100 5 (fun _ _ => 0) ⟨fun _ => 0, 0⟩ 0).1 :=
  ⟨by norm_num,
   (dispatch_chain_structure 5 (fun _ _ => 0) ⟨fun _ => 0, 0⟩ 0).2 (by norm_num)⟩

-- ===== QR algorithm =====

/-- The convergence test at the top of each `qrAlgorithm` iteration:
every subdiagonal entry satisfies `|A[i+1][i]| ≤ tolerance` (the JS sets
`converged = false` when some `|A[i+1][i]| > tolerance`). -/
def qrConverged (n : ℕ) (A : Mat) : Prop :=
  ∀ i < n - 1, |A (i + 1) i| ≤ tolerance

instance (n : ℕ) (A : Mat) : Decidable (qrConverged n A) :=
  Nat.decidableBallLT _ _

/-- One `A ← R·Q` update of the QR algorithm. -/
def rqIterate (n : ℕ) (A : Mat) : Mat :=
  matrixMultiply n (qrDecomposition n A).2 (qrDecomposition n A).1

/-- The `qrAlgorithm` iteration loop: check convergence at the top; on
convergence push the diagonal entries and stop; otherwise decompose and
recombine.  Returns the accumulated eigenvalue list (empty when the cap
was exhausted) and the final working matrix. -/
def qrAlgLoop (n : ℕ) : ℕ → Mat → List ℝ × Mat
  | 0, A => ([], A)
  | fuel + 1, A =>
    if qrConverged n A then ((List.range n).map (fun i => A i i), A)
    else qrAlgLoop n fuel (rqIterate n A)

/-- `qrAlgorithm(matrix, maxIterations = 1000)`: run the loop (on a copy);
if it exhausted the cap without converging, extract the diagonal of the
current iterate anyway; sort descending. -/
def qrAlgorithm (n : ℕ) (cap : ℕ) (M : Mat) : List ℝ :=
  let res := qrAlgLoop n cap M
  sortDesc (if res.1 = [] then (List.range n).map (fun i => res.2 i i) else res.1)

lemma qrAlgLoop_noconv (n : ℕ) :
    ∀ cap M, (∀ j < cap, ¬ qrConverged n ((rqIterate n)^[j] M)) →
      qrAlgLoop n cap M = ([], (rqIterate n)^[cap] M) := by
  intro cap
  induction cap with
  | zero =>
      intro M _
      rfl
  | succ cap ih =>
      intro M hns
      have h0 : ¬ qrConverged n M := by
        have := hns 0 (by omega)
        simpa using this
      rw [qrAlgLoop, if_neg h0, ih (rqIterate n M) (fun j hj => by
        have := hns (j + 1) (by omega)
        rwa [Function.iterate_succ_apply] at this)]
      rw [← Function.iterate_succ_apply]

-- ===== pure power-iteration trajectory (for the non-convergence claim) =====

/-- The vector held in `vector` at the top of iteration `j` of a power
iteration started from `v0`: each completed iteration multiplies by `A`
and divides by the Euclidean norm of the product. -/
def powerVec (n : ℕ) (A : Mat) (v0 : Vec) : ℕ → Vec
  | 0 => v0
  | j + 1 => fun i =>
      matVec n A (powerVec n A v0 j) i /
        Real.sqrt (∑ r ∈ Finset.range n,
          matVec n A (powerVec n A v0 j) r * matVec n A (powerVec n A v0 j) r)

/-- The Rayleigh-quotient estimate computed in iteration `j`. -/
def rayleighAt (n : ℕ) (A : Mat) (v0 : Vec) (j : ℕ) : ℝ :=
  dotProduct n (powerVec n A v0 j) (matVec n A (powerVec n A v0 j))

/-- The norm of the matrix–vector product computed in iteration `j`. -/
def iterNorm (n : ℕ) (A : Mat) (v0 : Vec) (j : ℕ) : ℝ :=
  Real.sqrt (∑ r ∈ Finset.range n,
    matVec n A (powerVec n A v0 j) r * matVec n A (powerVec n A v0 j) r)

/-- Iteration `j` hits neither break: the product norm is not below
tolerance, and (when `j > 0`) the Rayleigh estimate moved by at least the
tolerance since iteration `j - 1`. -/
def noBreak (n : ℕ) (A : Mat) (v0 : Vec) (j : ℕ) : Prop :=
  ¬ iterNorm n A v0 j < tolerance ∧
  (0 < j → ¬ |rayleighAt n A v0 j - rayleighAt n A v0 (j - 1)| < tolerance)

lemma powerLoop_noBreak (n : ℕ) (A : Mat) (v0 : Vec) :
    ∀ fuel j e p,
      (j = 0 ∨ p = rayleighAt n A v0 (j - 1)) →
      (∀ m, j ≤ m → m ≤ j + fuel → noBreak n A v0 m) →
      powerLoop n A (fuel + 1) j (powerVec n A v0 j) e p
        = (rayleighAt n A v0 (j + fuel),
           powerVec n A v0 (j + fuel + 1),
           rayleighAt n A v0 (j + fuel)) := by
  intro fuel
  induction fuel with
  | zero =>
      intro j e p hp hnb
      have hj := hnb j (le_refl j) (by omega)
      have hj1 : ¬ Real.sqrt (∑ r ∈ Finset.range n,
          matVec n A (powerVec n A v0 j) r * matVec n A (powerVec n A v0 j) r)
            < tolerance := hj.1
      simp only [powerLoop]
      rw [if_neg hj1]
      have hcond : ¬ (0 < j ∧
          |dotProduct n (powerVec n A v0 j) (matVec n A (powerVec n A v0 j))
            - p| < tolerance) := by
        rcases hp with h0 | hpr
        · exact fun hc => absurd (h0 ▸ hc.1) (Nat.lt_irrefl 0)
        · intro hc
          exact (hj.2 hc.1) (hpr ▸ hc.2)
      rw [if_neg hcond]
      rfl
  | succ fuel ih =>
      intro j e p hp hnb
      have hj := hnb j (le_refl j) (by omega)
      have hj1 : ¬ Real.sqrt (∑ r ∈ Finset.range n,
          matVec n A (powerVec n A v0 j) r * matVec n A (powerVec n A v0 j) r)
            < tolerance := hj.1
      simp only [powerLoop]
      rw [if_neg hj1]
      have hcond : ¬ (0 < j ∧
          |dotProduct n (powerVec n A v0 j) (matVec n A (powerVec n A v0 j))
            - p| < tolerance) := by
        rcases hp with h0 | hpr
        · exact fun hc => absurd (h0 ▸ hc.1) (Nat.lt_irrefl 0)
        · intro hc
          exact (hj.2 hc.1) (hpr ▸ hc.2)
      rw [if_neg hcond]
      have hrec := ih (j + 1)
        (rayleighAt n A v0 j) (rayleighAt n A v0 j)
        (Or.inr (by simp))
        (fun m hm1 hm2 => hnb m (by omega) (by omega))
      have harith : j + 1 + fuel = j + (fuel + 1) := by omega
      rw [harith] at hrec
      exact hrec

/-- C7: non-convergence is never a hard failure.  If `qrAlgorithm`
exhausts its cap with every iterate failing the subdiagonal convergence
test, it still returns the diagonal entries of the current iterate sorted
descending; if `powerIteration` runs all its iterations without either
break firing, it returns the most recent Rayleigh-quotient estimate
together with the current (last renormalized) vector. -/
theorem nonconvergence_best_effort (n : ℕ) (M : Mat) (cap : ℕ)
    (rs : RState) (p0 : ℝ) :
    ((∀ j < cap, ¬ qrConverged n ((rqIterate n)^[j] M)) →
      qrAlgorithm n cap M
        = sortDesc ((List.range n).map
            (fun i => ((rqIterate n)^[cap] M) i i))) ∧
    (1 ≤ cap → (∀ j < cap, noBreak n M (initVec n rs) j) →
      (powerIteration n M cap rs p0).ev
          = rayleighAt n M (initVec n rs) (cap - 1) ∧
      (powerIteration n M cap rs p0).evec
          = powerVec n M (initVec n rs) cap) := by
  constructor
  · intro hns
    rw [qrAlgorithm, qrAlgLoop_noconv n cap M hns]
    rfl
  · intro hcap hnb
    rcases Nat.exists_eq_add_of_le hcap with ⟨f, hf⟩
    subst hf
    have h := powerLoop_noBreak n M (initVec n rs) f 0 0 p0
      (Or.inl rfl) (fun m hm1 hm2 => hnb m (by omega))
    have h0 : powerVec n M (initVec n rs) 0 = initVec n rs := rfl
    rw [h0] at h
    have harith : (0 : ℕ) + f = 1 + f - 1 := by omega
    rw [harith] at h
    have harith2 : 1 + f - 1 + 1 = 1 + f := by omega
    rw [harith2] at h
    constructor
    · show (powerLoop n M (1 + f) 0 (initVec n rs) 0 p0).1 = _
      rw [show 1 + f = f + 1 from by omega, h,
        show f + 1 - 1 = 1 + f - 1 from by omega]
    · show (powerLoop n M (1 + f) 0 (initVec n rs) 0 p0).2.1 = _
      rw [show 1 + f = f + 1 from by omega, h,
        show f + 1 = 1 + f from by omega]

/-- A concrete random source: first draw `1`, all later draws `0`. -/
def RS7 : RState := ⟨fun m => if m = 0 then 1 else 0, 0⟩

/-- The unit vector `(1, 0)` that `RS7` produces as initial vector. -/
def V7 : Vec := fun i => if i = 0 then 1 else 0

lemma initVec_RS7 : initVec 2 RS7 = V7 := by
  funext i
  simp only [initVec, RS7]
  have hsum : (∑ r ∈ Finset.range 2,
      (fun i => if i < 2 then (fun m => if m = 0 then (1:ℝ) else 0) (0 + i) else 0) r *
      (fun i => if i < 2 then (fun m => if m = 0 then (1:ℝ) else 0) (0 + i) else 0) r) = 1 := by
    simp [Finset.sum_range_succ]
  rw [hsum, Real.sqrt_one]
  rcases i with _ | _ | i <;> simp [V7]

lemma matVec_M7_V7 : ∀ r, matVec 2 M7 V7 r =
    if r = 0 then 7 else if r = 1 then 24 else 0 := by
  intro r
  rcases r with _ | _ | r <;>
    simp [matVec, M7, V7, Finset.sum_range_succ] <;> norm_num

lemma m7_noBreak0 : ∀ j < 1, noBreak 2 M7 (initVec 2 RS7) j := by
  intro j hj
  have hj0 : j = 0 := by omega
  subst hj0
  constructor
  · have h25 : iterNorm 2 M7 (initVec 2 RS7) 0 = 25 := by
      rw [iterNorm]
      have hpv : powerVec 2 M7 (initVec 2 RS7) 0 = V7 := initVec_RS7
      rw [hpv]
      have hsum : (∑ r ∈ Finset.range 2,
          matVec 2 M7 V7 r * matVec 2 M7 V7 r) = 625 := by
        simp [Finset.sum_range_succ, matVec_M7_V7]
        norm_num
      rw [hsum, sqrt_eval (y := 25) (by norm_num) (by norm_num)]
    rw [h25]
    norm_num [tolerance]
  · intro h0
    exact absurd h0 (Nat.lt_irrefl 0)

lemma m7_notConverged : ∀ j < 1, ¬ qrConverged 2 ((rqIterate 2)^[j] M7) := by
  intro j hj
  have hj0 : j = 0 := by omega
  subst hj0
  intro h
  have h24 := h 0 (by norm_num)
  rw [show ((rqIterate 2)^[0] M7) 1 0 = M7 1 0 from rfl] at h24
  rw [show M7 1 0 = 24 from by norm_num [M7]] at h24
  rw [show |(24:ℝ)| = 24 from by norm_num] at h24
  exact absurd h24 (by norm_num [tolerance])

/-- Witness for C7 at `n = 2`, `A = [[7,24],[24,7]]`, cap 1: neither the
QR loop nor the power iteration meets its tolerance in one iteration, and
both fall back to the stated best-effort results. -/
theorem nonconvergence_best_effort_witness :
    (∀ j < 1, ¬ qrConverged 2 ((rqIterate 2)^[j] M7)) ∧
    ((1:ℕ) ≤ 1 ∧ ∀ j < 1, noBreak 2 M7 (initVec 2 RS7) j) ∧
    qrAlgorithm 2 1 M7
      = sortDesc ((List.range 2).map (fun i => ((rqIterate 2)^[1] M7) i i)) ∧
    (powerIteration 2 M7 1 RS7 0).ev = rayleighAt 2 M7 (initVec 2 RS7) 0 :=
  ⟨m7_notConverged, ⟨le_refl 1, m7_noBreak0⟩,
   (nonconvergence_best_effort 2 M7 1 RS7 0).1 m7_notConverged,
   ((nonconvergence_best_effort 2 M7 1 RS7 0).2 (le_refl 1) m7_noBreak0).1⟩

-- ===== C6: result length and descending order =====

lemma sortDesc_sorted (l : List ℝ) :
    List.Sorted (fun x y : ℝ => x ≥ y) (sortDesc l) := by
  rw [sortDesc]
  exact List.sorted_insertionSort _ l

lemma sortDesc_length (l : List ℝ) : (sortDesc l).length = l.length := by
  rw [sortDesc]
  exact List.length_insertionSort _ l

lemma chain_length (n cap : ℕ) :
    ∀ m A rs p, (powerDeflationChain n cap m A rs p).1.length = m := by
  intro m
  induction m with
  | zero => intro A rs p; rfl
  | succ m ih =>
      intro A rs p
      rw [powerDeflationChain]
      rcases Nat.eq_zero_or_pos m with hm | hm
      · subst hm; rfl
      · rw [if_neg (by omega)]
        simp only [List.length_cons]
        rw [ih]

lemma eigenvalues2x2_length (M : Mat) : (eigenvalues2x2 M).length = 2 := by
  simp only [eigenvalues2x2]
  split
  · rfl
  · rw [sortDesc_length]
    rfl

lemma eigenvalues3x3_length (M : Mat) : (eigenvalues3x3 M).length = 3 := by
  simp only [eigenvalues3x3]
  split
  · rfl
  · split
    · rw [sortDesc_length]
      rfl
    · rw [sortDesc_length]
      rfl

lemma eigenvalues2x2_sorted (M : Mat) :
    List.Sorted (fun x y : ℝ => x ≥ y) (eigenvalues2x2 M) := by
  simp only [eigenvalues2x2]
  split
  · simp [List.Sorted, List.pairwise_cons]
  · exact sortDesc_sorted _

lemma eigenvalues3x3_sorted (M : Mat) :
    List.Sorted (fun x y : ℝ => x ≥ y) (eigenvalues3x3 M) := by
  simp only [eigenvalues3x3]
  split
  · simp [List.Sorted, List.pairwise_cons]
  · split
    · exact sortDesc_sorted _
    · exact sortDesc_sorted _

/-- C6: for every order `n ≥ 0`, on every dispatch path, the dispatcher
returns exactly `n` real values sorted descending (non-increasing), and
`qrAlgorithm`'s result is likewise sorted descending. -/
theorem results_length_and_sorted (n : ℕ) (M : Mat) (rs : RState) (p : ℝ)
    (cap : ℕ) :
    (calculateEigenvalues n M rs p).length = n ∧
    List.Sorted (fun x y : ℝ => x ≥ y) (calculateEigenvalues n M rs p) ∧
    List.Sorted (fun x y : ℝ => x ≥ y) (qrAlgorithm n cap M) := by
  refine ⟨?_, ?_, ?_⟩
  · match n with
    | 0 => rfl
    | 1 => rfl
    | 2 => exact eigenvalues2x2_length M
    | 3 => exact eigenvalues3x3_length M
    | 4 =>
        show (findAllEigenvalues 4 M rs p).length = 4
        rw [findAllEigenvalues, if_pos (by norm_num), simpleEigenvalueMethod,
          if_neg (by norm_num), if_neg (by norm_num), if_pos rfl,
          eigenvalues4x4, sortDesc_length]
        rfl
    | (m + 5) =>
        show (findAllEigenvalues (m + 5) M rs p).length = m + 5
        rw [findAllEigenvalues, if_neg (by omega), sortDesc_length,
          List.range_eq_range',
          findFold_eq_chain (m + 5) (m + 5) 0 M rs p [] (by omega) (by omega),
          List.nil_append, chain_length]
  · match n with
    | 0 => simp [calculateEigenvalues]
    | 1 => simp [calculateEigenvalues]
    | 2 => exact eigenvalues2x2_sorted M
    | 3 => exact eigenvalues3x3_sorted M
    | 4 =>
        show List.Sorted _ (findAllEigenvalues 4 M rs p)
        rw [findAllEigenvalues, if_pos (by norm_num), simpleEigenvalueMethod,
          if_neg (by norm_num), if_neg (by norm_num), if_pos rfl,
          eigenvalues4x4]
        exact sortDesc_sorted _
    | (m + 5) =>
        show List.Sorted _ (findAllEigenvalues (m + 5) M rs p)
        rw [findAllEigenvalues, if_neg (by omega)]
        exact sortDesc_sorted _
  · rw [qrAlgorithm]
    exact sortDesc_sorted _

-- ===== graph layer (Laplacian producer contract) =====

/-- A canvas node as built by `addNode` (the constant `radius: 20` and
the transient `isDragging` flag play no role in any modelled
operation). -/
structure GNode where
  id : ℕ
  x : ℝ
  y : ℝ
  label : ℕ
  isIsolated : Bool

/-- An edge object; `efrom`/`eto` are the JS fields `from`/`to` (Lean
reserves `from`). -/
structure GEdge where
  id : ℕ
  efrom : ℕ
  eto : ℕ
  directed : Bool

/-- The graph state: the fields of the JS `Graph` class that the six
public operations read or write (`selectedNode` and `mode` only matter to
the mouse-event handlers, which are not among the modelled operations). -/
structure GraphState where
  nodes : List GNode
  edges : List GEdge
  nodeIdCounter : ℕ
  edgeIdCounter : ℕ
  isDirected : Bool

/-- `updateNodeConnectivity()`: recompute every node's `isIsolated`
flag. -/
def updateNodeConnectivity (g : GraphState) : GraphState :=
  { g with nodes := g.nodes.map fun nd =>
      { nd with isIsolated :=
          !(g.edges.any fun e => e.efrom == nd.id || e.eto == nd.id) } }

/-- `addNode(x, y)`: clamp the position to the canvas (width `w`, height
`h`, margin 25), push a fresh node (`id` is the counter before the
post-increment, `label` the counter after), and refresh connectivity. -/
def addNode (w h x y : ℝ) (g : GraphState) : GraphState :=
  let boundedX := max 25 (min x (w - 25))
  let boundedY := max 25 (min y (h - 25))
  let node : GNode := ⟨g.nodeIdCounter, boundedX, boundedY, g.nodeIdCounter + 1, true⟩
  updateNodeConnectivity
    { g with nodes := g.nodes ++ [node], nodeIdCounter := g.nodeIdCounter + 1 }

/-- `addEdge(node1, node2)`: reject duplicates (one direction when
directed, both when undirected) and self-loops (`node1.id === node2.id`),
else push `{from: node1.id, to: node2.id}` and refresh connectivity. -/
def addEdge (n1 n2 : GNode) (g : GraphState) : GraphState :=
  let existing :=
    if g.isDirected then
      g.edges.any fun e => e.efrom == n1.id && e.eto == n2.id
    else
      g.edges.any fun e => (e.efrom == n1.id && e.eto == n2.id) ||
        (e.efrom == n2.id && e.eto == n1.id)
  if existing || n1.id == n2.id then g
  else
    let e : GEdge := ⟨g.edgeIdCounter, n1.id, n2.id, g.isDirected⟩
    updateNodeConnectivity
      { g with edges := g.edges ++ [e], edgeIdCounter := g.edgeIdCounter + 1 }

/-- `removeNode(nodeId)`: drop the node and every incident edge. -/
def removeNode (nid : ℕ) (g : GraphState) : GraphState :=
  updateNodeConnectivity
    { g with nodes := g.nodes.filter fun nd => nd.id != nid,
             edges := g.edges.filter fun e => e.efrom != nid && e.eto != nid }

/-- `removeEdge(edgeId)`. -/
def removeEdge (eid : ℕ) (g : GraphState) : GraphState :=
  updateNodeConnectivity { g with edges := g.edges.filter fun e => e.id != eid }

/-- `clear()` (the directedness toggle is not reset). -/
def clearGraph (g : GraphState) : GraphState :=
  { g with nodes := [], edges := [], nodeIdCounter := 0, edgeIdCounter := 0 }

/-- `setDirected(isDirected)`: set the flag and restamp every edge. -/
def setDirected (b : Bool) (g : GraphState) : GraphState :=
  { g with isDirected := b,
           edges := g.edges.map fun e => { e with directed := b } }

/-- Graph states reachable from the freshly constructed `Graph` through
the public operations (callers may pass arbitrary node objects to
`addEdge`, as the mouse handlers do). -/
inductive Reachable : GraphState → Prop where
  | init : Reachable ⟨[], [], 0, 0, false⟩
  | addNode (w h x y : ℝ) {g : GraphState} :
      Reachable g → Reachable (addNode w h x y g)
  | addEdge (n1 n2 : GNode) {g : GraphState} :
      Reachable g → Reachable (addEdge n1 n2 g)
  | removeNode (nid : ℕ) {g : GraphState} :
      Reachable g → Reachable (removeNode nid g)
  | removeEdge (eid : ℕ) {g : GraphState} :
      Reachable g → Reachable (removeEdge eid g)
  | clear {g : GraphState} : Reachable g → Reachable (clearGraph g)
  | setDirected (b : Bool) {g : GraphState} :
      Reachable g → Reachable (setDirected b g)

/-- One edge of the `getAdjacencyMatrix` loop: look up both endpoint
indices (`findIndex` by id; not-found is `-1` in JS, `length` here) and,
when both are present, write `1` at `[fi][ti]` and — for undirected
graphs — at `[ti][fi]`. -/
def adjInsert (g : GraphState) (Mx : Mat) (e : GEdge) : Mat :=
  let n := g.nodes.length
  let fi := g.nodes.findIdx fun nd => nd.id == e.efrom
  let ti := g.nodes.findIdx fun nd => nd.id == e.eto
  if fi < n ∧ ti < n then
    fun i j =>
      if i = fi ∧ j = ti then 1
      else if g.isDirected = false ∧ i = ti ∧ j = fi then 1
      else Mx i j
  else Mx

/-- `getAdjacencyMatrix()`: start from the zero matrix and process every
edge. -/
def getAdjacencyMatrix (g : GraphState) : Mat :=
  g.edges.foldl (adjInsert g) (fun _ _ => 0)

/-- `getDegreeMatrix()`: diagonal of row sums of the adjacency matrix
(the JS `if (this.isDirected)` has identical branches: out-degree and
total degree are both the row sum). -/
def getDegreeMatrix (g : GraphState) : Mat :=
  let n := g.nodes.length
  let adjacency := getAdjacencyMatrix g
  fun i j =>
    if i = j ∧ i < n then
      (if g.isDirected then ∑ c ∈ Finset.range n, adjacency i c
       else ∑ c ∈ Finset.range n, adjacency i c)
    else 0

/-- `getLaplacianMatrix()`: `L = D − A` entrywise on the `n × n` block. -/
def getLaplacianMatrix (g : GraphState) : Mat :=
  let n := g.nodes.length
  let adjacency := getAdjacencyMatrix g
  let degree := getDegreeMatrix g
  fun i j => if i < n ∧ j < n then degree i j - adjacency i j else 0

/-- No stored edge is a self-loop. -/
def EdgesOK (g : GraphState) : Prop := ∀ e ∈ g.edges, e.efrom ≠ e.eto

lemma reachable_edgesOK {g : GraphState} (h : Reachable g) : EdgesOK g := by
  induction h with
  | init =>
      intro e he
      exact absurd he (List.not_mem_nil e)
  | addNode w hh x y _ ih =>
      intro e he
      exact ih e he
  | addEdge n1 n2 _ ih =>
      rename_i g' _
      intro e he
      rw [addEdge] at he
      split at he <;> split at he <;>
        first
        | exact ih e he
        | (rename_i hguard
           simp only [updateNodeConnectivity, List.mem_append,
             List.mem_singleton] at he
           rcases he with he | he
           · exact ih e he
           · subst he
             intro hcontra
             apply hguard
             have hc2 : n1.id = n2.id := hcontra
             simp [hc2])
  | removeNode nid _ ih =>
      intro e he
      simp only [removeNode, updateNodeConnectivity, List.mem_filter] at he
      exact ih e he.1
  | removeEdge eid _ ih =>
      intro e he
      simp only [removeEdge, updateNodeConnectivity, List.mem_filter] at he
      exact ih e he.1
  | clear _ =>
      intro e he
      exact absurd he (List.not_mem_nil e)
  | setDirected b _ ih =>
      intro e he
      simp only [setDirected, List.mem_map] at he
      obtain ⟨e', he', rfl⟩ := he
      exact ih e' he'

lemma adjInsert_diag (g : GraphState) (Mx : Mat) (e : GEdge)
    (he : e.efrom ≠ e.eto) (hd : ∀ i, Mx i i = 0) :
    ∀ i, adjInsert g Mx e i i = 0 := by
  intro i
  simp only [adjInsert]
  split
  · rename_i hft
    have hne : g.nodes.findIdx (fun nd => nd.id == e.efrom)
        ≠ g.nodes.findIdx (fun nd => nd.id == e.eto) := by
      intro heq
      have h1 : (g.nodes.get
          ⟨g.nodes.findIdx fun nd => nd.id == e.efrom, hft.1⟩).id = e.efrom := by
        have := List.findIdx_get (w := hft.1)
          (p := fun nd : GNode => nd.id == e.efrom)
        simpa [beq_iff_eq] using this
      have h2 : (g.nodes.get
          ⟨g.nodes.findIdx fun nd => nd.id == e.eto, hft.2⟩).id = e.eto := by
        have := List.findIdx_get (w := hft.2)
          (p := fun nd : GNode => nd.id == e.eto)
        simpa [beq_iff_eq] using this
      have hgets : g.nodes.get
            ⟨g.nodes.findIdx fun nd => nd.id == e.efrom, hft.1⟩
          = g.nodes.get
            ⟨g.nodes.findIdx fun nd => nd.id == e.eto, hft.2⟩ :=
        congrArg g.nodes.get (Fin.ext heq)
      exact he (h1.symm.trans ((congrArg GNode.id hgets).trans h2))
    show (fun i j =>
        if i = g.nodes.findIdx (fun nd => nd.id == e.efrom) ∧
            j = g.nodes.findIdx (fun nd => nd.id == e.eto) then (1:ℝ)
        else if g.isDirected = false ∧
            i = g.nodes.findIdx (fun nd => nd.id == e.eto) ∧
            j = g.nodes.findIdx (fun nd => nd.id == e.efrom) then 1
        else Mx i j) i i = 0
    simp only []
    rw [if_neg (by intro hc; exact hne (hc.1.symm.trans hc.2)),
      if_neg (by intro hc; exact hne (hc.2.2.symm.trans hc.2.1))]
    exact hd i
  · exact hd i

lemma adj_diag_zero (g : GraphState) (hok : EdgesOK g) (i : ℕ) :
    getAdjacencyMatrix g i i = 0 := by
  rw [getAdjacencyMatrix]
  have key : ∀ (l : List GEdge), (∀ e ∈ l, e.efrom ≠ e.eto) →
      ∀ (M0 : Mat), (∀ r, M0 r r = 0) →
      ∀ r, (l.foldl (adjInsert g) M0) r r = 0 := by
    intro l
    induction l with
    | nil => intro _ M0 hM0 r; exact hM0 r
    | cons e l ih =>
        intro hl M0 hM0 r
        rw [List.foldl_cons]
        exact ih (fun e2 he2 => hl e2 (List.mem_cons_of_mem e he2))
          (adjInsert g M0 e)
          (adjInsert_diag g M0 e (hl e (List.mem_cons_self e l)) hM0) r
  exact key g.edges hok (fun _ _ => 0) (fun _ => rfl) i

/-- C9: in every reachable graph state, the Laplacian matrix satisfies
`L[i][j] = degree[i]` on the diagonal — where `degree[i]` is the row sum
of the adjacency matrix — and `L[i][j] = −adjacency[i][j]` off the
diagonal.  (On the diagonal this needs `adjacency[i][i] = 0`, which holds
because `addEdge` rejects self-loops.) -/
theorem laplacian_contract (g : GraphState) (hg : Reachable g) (i j : ℕ)
    (hi : i < g.nodes.length) (hj : j < g.nodes.length) :
    getLaplacianMatrix g i j =
      if i = j then
        ∑ c ∈ Finset.range g.nodes.length, getAdjacencyMatrix g i c
      else -(getAdjacencyMatrix g i j) := by
  have hok := reachable_edgesOK hg
  simp only [getLaplacianMatrix]
  rw [if_pos ⟨hi, hj⟩]
  by_cases hij : i = j
  · subst hij
    rw [if_pos rfl]
    simp only [getDegreeMatrix]
    rw [if_pos (And.intro trivial hi), ite_self, adj_diag_zero g hok i,
      sub_zero]
  · rw [if_neg hij]
    simp only [getDegreeMatrix]
    rw [if_neg (fun hc => hij hc.1)]
    ring

/-- A concrete reachable two-node, one-edge graph for the witness. -/
def gW : GraphState :=
  addEdge ⟨0, 0, 0, 0, true⟩ ⟨1, 0, 0, 0, true⟩
    (addNode 100 100 30 30 (addNode 100 100 30 30 ⟨[], [], 0, 0, false⟩))

lemma gW_reachable : Reachable gW :=
  Reachable.addEdge _ _ (Reachable.addNode 100 100 30 30
    (Reachable.addNode 100 100 30 30 Reachable.init))

lemma gW_len : gW.nodes.length = 2 := by
  simp [gW, addEdge, addNode, updateNodeConnectivity]

/-- Witness for C9: the two-node, one-edge state, off-diagonal entry. -/
theorem laplacian_contract_witness :
    Reachable gW ∧ 0 < gW.nodes.length ∧ 1 < gW.nodes.length ∧
    getLaplacianMatrix gW 0 1 =
      if (0 : ℕ) = 1 then
        ∑ c ∈ Finset.range gW.nodes.length, getAdjacencyMatrix gW 0 c
      else -(getAdjacencyMatrix gW 0 1) :=
  ⟨gW_reachable, by rw [gW_len]; norm_num, by rw [gW_len]; norm_num,
   laplacian_contract gW gW_reachable 0 1 (by rw [gW_len]; norm_num)
     (by rw [gW_len]; norm_num)⟩

end

end EigenLap
